import Mathlib

/-!
# goDiffIt — verification of the normalization / set-algebra / reporting core

Shallow embedding of `cmd/root.go` (package `cmd`) of JakeTRogers/goDiffIt.

Go strings are modelled as `List Char` (`Str`); the Go standard-library string
helpers used by the code (`strings.TrimSpace`, `strings.ToLower`,
`strings.Contains`, `strings.Split`, `strings.TrimPrefix`, `strings.TrimSuffix`)
are given char-level models below.  Hash sets (`hashset.Set[string]`) are
modelled as `Finset Str`; the gods library's `Intersection`, `Union` and
`Difference` are the usual set operations.  A compiled regular expression is
modelled abstractly by its `FindStringSubmatch` behaviour: a function
`Str → List Str` returning `[]` for "no match" and otherwise the list
`[full match, group 1, ...]`, exactly the shape the Go code inspects.
File/stdin I/O and byte-level formatting (`fmt.Fprintf` rendering) are not
modelled; the structured content each print path emits is.
-/

/-- Go `string`, modelled at the character level. -/
abbrev Str := List Char

/-- Go `strings.ToLower` (ASCII-faithful model): lowercase every character. -/
def lowerL (s : Str) : Str := s.map Char.toLower

/-- Go `strings.TrimSpace`: drop leading and trailing whitespace. -/
def trimL (s : Str) : Str :=
  ((s.dropWhile Char.isWhitespace).reverse.dropWhile Char.isWhitespace).reverse

/-- Go `strings.HasPrefix p s`-style test: `p` is a prefix of `s`. -/
def hasPrefixL : Str → Str → Bool
  | _, [] => true
  | [], _ :: _ => false
  | c :: s, d :: p => c == d && hasPrefixL s p

/-- Go `strings.HasSuffix`: `p` is a suffix of `s`. -/
def hasSuffixL (s p : Str) : Bool := hasPrefixL s.reverse p.reverse

/-- Go `strings.Contains`: `p` occurs as a substring of `s`
(always true for `p = ""`). -/
def containsL : Str → Str → Bool
  | s@([]), p => hasPrefixL s p
  | s@(_ :: s'), p => hasPrefixL s p || containsL s' p

/-- The part of `s` strictly before the first occurrence of `p`
(all of `s` when `p` does not occur); for non-empty `p` this is
`strings.Split(s, p)[0]`. -/
def beforeFirst : Str → Str → Str
  | s@([]), _ => if hasPrefixL s [] then [] else []
  | s@(c :: s'), p => if hasPrefixL s p then [] else c :: beforeFirst s' p

/-- Go `strings.Split(s, sep)[0]`: for empty `sep` Go splits into single
characters, so the head element is the first character; otherwise it is the
part before the first occurrence of `sep`. -/
def splitHead (s sep : Str) : Str :=
  if sep = [] then
    match s with
    | [] => []
    | c :: _ => [c]
  else beforeFirst s sep

/-- Go `strings.TrimPrefix`: remove `p` from the front of `s` only when `s`
starts with it. -/
def trimPrefixL (s p : Str) : Str :=
  if hasPrefixL s p then s.drop p.length else s

/-- Go `strings.TrimSuffix`: remove `p` from the end of `s` only when `s`
ends with it. -/
def trimSuffixL (s p : Str) : Str :=
  if hasSuffixL s p then s.take (s.length - p.length) else s

/-- The runtime configuration (`config` struct in `cmd/root.go`).
`extract` models the compiled `*regexp.Regexp` by its `FindStringSubmatch`
behaviour (`none` = nil pointer); the `output` path field is omitted because
file-sink creation is I/O outside the embedding. -/
structure Config where
  caseSensitive : Bool
  delimiter : Str
  extract : Option (Str → List Str)
  format : Str
  ignoreFQDN : Bool
  pipe : Bool
  count : Bool
  stats : Bool
  trimPrefix : Str
  trimSuffix : Str

/-- Stages 5–8 of the per-line normalization in `fileToSet`
(`cmd/root.go:138–149`): FQDN stripping, prefix/suffix trimming and the final
empty check, applied after the extract/delimiter branch. -/
def finishLine (cfg : Config) (line : Str) : Option Str :=
  let line := if cfg.ignoreFQDN then trimL (splitHead line ['.']) else line
  let line := if cfg.trimPrefix ≠ [] then trimPrefixL line cfg.trimPrefix else line
  let line := if cfg.trimSuffix ≠ [] then trimSuffixL line cfg.trimSuffix else line
  if line = [] then none else some line

/-- One iteration of the scanner loop of `fileToSet` (`cmd/root.go:114–150`):
the whole per-line normalization pipeline, `none` meaning `continue` (line
skipped), `some t` meaning `set.Add(t)`. -/
def normalizeLine (cfg : Config) (raw : Str) : Option Str :=
  let line := trimL raw
  if line = [] then none
  else
    let line := if cfg.caseSensitive then line else lowerL line
    match cfg.extract with
    | some re =>
      let ms := re line
      if 1 < ms.length then finishLine cfg (trimL (ms.getD 1 []))
      else if ms.length = 1 then finishLine cfg (trimL (ms.getD 0 []))
      else none
    | none =>
      if containsL line cfg.delimiter then
        finishLine cfg (trimL (splitHead line cfg.delimiter))
      else finishLine cfg line

/-- `fileToSet` (`cmd/root.go:91–155`) on an already-read list of raw lines:
fold the scanner loop, inserting each produced token into the hash set. -/
def fileToSet (cfg : Config) (lines : List Str) : Finset Str :=
  lines.foldl
    (fun s l =>
      match normalizeLine cfg l with
      | some t => insert t s
      | none => s)
    ∅

/-- `fileSet` struct: a source path together with its parsed Line Set. -/
structure FileSet where
  path : Str
  set : Finset Str

/-- `results` struct: input file sets, operation name, and the computed
primary (`diffAB`) and secondary (`diffBA`) result sets. -/
structure Results where
  fileSetA : FileSet
  fileSetB : FileSet
  operation : Str
  diffAB : Finset Str
  diffBA : Finset Str

/-- The three operation-selecting CLI flags read in `rootCmd.RunE`. -/
structure OpFlags where
  intersectionFlag : Bool
  unionFlag : Bool
  symmetricDiffFlag : Bool

/-- The operation `switch` of `rootCmd.RunE` (`cmd/root.go:438–467`): the
`results` value is initialised with two empty hash sets, then exactly one
branch fills `diffAB` (and, for `difference` without pipe mode, `diffBA`). -/
def computeResults (fl : OpFlags) (cfg : Config) (pa pb : Str)
    (setA setB : Finset Str) : Results :=
  let rs : Results :=
    { fileSetA := ⟨pa, setA⟩
      fileSetB := ⟨pb, setB⟩
      operation := []
      diffAB := ∅
      diffBA := ∅ }
  if fl.intersectionFlag then
    { rs with operation := "intersection".toList, diffAB := setA ∩ setB }
  else if fl.unionFlag then
    { rs with operation := "union".toList, diffAB := setA ∪ setB }
  else if fl.symmetricDiffFlag then
    { rs with
      operation := "symmetric-difference".toList
      diffAB := (setA \ setB) ∪ (setB \ setA) }
  else
    { rs with
      operation := "difference".toList
      diffAB := setA \ setB
      diffBA := if cfg.pipe then ∅ else setB \ setA }

/-- `results.hasDifferences` (`cmd/root.go:159–161`). -/
def hasDifferences (r : Results) : Bool :=
  (r.diffAB.card != 0) ||
    ((r.operation == "difference".toList) && (r.diffBA.card != 0))

/-- `toSortedSlice` (`cmd/root.go:164–166`): the set's values in sorted order. -/
def toSortedSlice (hs : Finset Str) : List Str :=
  hs.sort (· ≤ ·)

/-- `jsonOutput` struct: the document `printJSON` encodes (the two Go maps are
modelled as association lists in insertion order). -/
structure JsonOut where
  operation : Str
  fileA : Str
  fileB : Str
  results : List (Str × List Str)
  counts : List (Str × Nat)
deriving DecidableEq

/-- `printJSON` (`cmd/root.go:178–203`), minus the byte-level JSON encoding:
the document it hands to the encoder. -/
def printJSON (r : Results) : JsonOut :=
  if r.operation = "difference".toList then
    { operation := r.operation
      fileA := r.fileSetA.path
      fileB := r.fileSetB.path
      results := [("A-B".toList, toSortedSlice r.diffAB),
                  ("B-A".toList, toSortedSlice r.diffBA)]
      counts := [("A-B".toList, r.diffAB.card), ("B-A".toList, r.diffBA.card)] }
  else
    { operation := r.operation
      fileA := r.fileSetA.path
      fileB := r.fileSetB.path
      results := [(r.operation, toSortedSlice r.diffAB)]
      counts := [(r.operation, r.diffAB.card)] }

/-- `printCSV` (`cmd/root.go:207–242`): the rows written, header first.  For
`difference` a (`set`,`value`) header then one labelled row per element of
A−B and then of B−A; otherwise a (`value`) header and one row per element. -/
def printCSV (r : Results) : List (List Str) :=
  if r.operation = "difference".toList then
    ["set".toList, "value".toList] ::
      ((toSortedSlice r.diffAB).map (fun v => ["A-B".toList, v]) ++
       (toSortedSlice r.diffBA).map (fun v => ["B-A".toList, v]))
  else
    ["value".toList] :: (toSortedSlice r.diffAB).map (fun v => [v])

/-- The count-mode branch of `printSet` (`cmd/root.go:279–293`): the printed
lines as (optional label, count) pairs. -/
def printCount (r : Results) : List (Option Str × Nat) :=
  if r.operation = "difference".toList then
    [(some "A-B".toList, r.diffAB.card), (some "B-A".toList, r.diffBA.card)]
  else [(none, r.diffAB.card)]

/-- The figures printed by the stats-mode branch of `printSet`
(`cmd/root.go:296–330`); the two one-decimal percentages (Go `float64`) are
modelled exactly as rationals, present only when both inputs are non-empty. -/
structure StatsOut where
  sizeA : Nat
  sizeB : Nat
  overlap : Nat
  pct : Option (ℚ × ℚ)
  onlyA : Nat
  onlyB : Nat
deriving DecidableEq

/-- The stats-mode branch of `printSet` (`cmd/root.go:296–330`). -/
def printStats (r : Results) : StatsOut :=
  let sizeA := r.fileSetA.set.card
  let sizeB := r.fileSetB.set.card
  let overlap := (r.fileSetA.set ∩ r.fileSetB.set).card
  { sizeA := sizeA
    sizeB := sizeB
    overlap := overlap
    pct :=
      if 0 < sizeA ∧ 0 < sizeB then
        some ((overlap : ℚ) / sizeA * 100, (overlap : ℚ) / sizeB * 100)
      else none
    onlyA := sizeA - overlap
    onlyB := sizeB - overlap }

/-- One line of text-mode output: an operation header naming two sources, or
one element of a result set. -/
inductive OutLine where
  | header (operation p1 p2 : Str)
  | element (v : Str)
deriving DecidableEq

/-- The recognised operation names of the text-mode header `switch`
(`cmd/root.go:334–345`). -/
def validOps : List Str :=
  ["intersection".toList, "union".toList, "difference".toList,
   "symmetric-difference".toList]

/-- The text-mode tail of `printSet` (`cmd/root.go:332–368`): without pipe
mode the header `switch` runs first and an unrecognised operation is an error;
with pipe mode only the primary elements are printed.  The reverse-direction
block runs only for `difference` without pipe mode. -/
def printText (cfg : Config) (r : Results) : Except Str (List OutLine) :=
  if cfg.pipe then
    Except.ok ((toSortedSlice r.diffAB).map OutLine.element)
  else if r.operation ∈ validOps then
    Except.ok
      (OutLine.header r.operation r.fileSetA.path r.fileSetB.path ::
        (toSortedSlice r.diffAB).map OutLine.element ++
        (if r.operation = "difference".toList then
          OutLine.header r.operation r.fileSetB.path r.fileSetA.path ::
            (toSortedSlice r.diffBA).map OutLine.element
        else []))
  else Except.error ("invalid operation: ".toList ++ r.operation)

/-- What `printSet` wrote, by mode. -/
inductive PrintOut where
  | json (j : JsonOut)
  | csv (rows : List (List Str))
  | countOut (cs : List (Option Str × Nat))
  | statsOut (st : StatsOut)
  | text (ls : List OutLine)
deriving DecidableEq

/-- `printSet` (`cmd/root.go:250–369`): mode precedence is json, then csv,
then count, then stats, then text. -/
def printSet (cfg : Config) (r : Results) : Except Str PrintOut :=
  if cfg.format = "json".toList then Except.ok (PrintOut.json (printJSON r))
  else if cfg.format = "csv".toList then Except.ok (PrintOut.csv (printCSV r))
  else if cfg.count then Except.ok (PrintOut.countOut (printCount r))
  else if cfg.stats then Except.ok (PrintOut.statsOut (printStats r))
  else (printText cfg r).map PrintOut.text

/-- The error value `rootCmd.RunE` returns: `DiffFoundError{}` or an
ordinary error. -/
inductive RunErr where
  | diffFound
  | msg (e : Str)
deriving DecidableEq

/-- The tail of `rootCmd.RunE` (`cmd/root.go:451–480`) after both input sets
are built: compute the result sets, print, then return `DiffFoundError` when
differences were found and `nil` otherwise. -/
def runE (fl : OpFlags) (cfg : Config) (pa pb : Str)
    (setA setB : Finset Str) : Option RunErr :=
  let rs := computeResults fl cfg pa pb setA setB
  match printSet cfg rs with
  | Except.error e => some (RunErr.msg e)
  | Except.ok _ => if hasDifferences rs then some RunErr.diffFound else none

/-- `Execute` (`cmd/root.go:485–496`): map the command's error result to the
process exit status. -/
def executeExit (err : Option RunErr) : Nat :=
  match err with
  | none => 0
  | some RunErr.diffFound => 1
  | some (RunErr.msg _) => 2

/-- Index of the first occurrence of `p` as a substring of `s` (spec-side
formulation of "its first occurrence" for the normalizer claim). -/
def firstOcc : Str → Str → Option Nat
  | [], p => if p = [] then some 0 else none
  | c :: s', p =>
    if hasPrefixL (c :: s') p then some 0 else (firstOcc s' p).map (· + 1)

/-- Spec-side "the line contains the delimiter": some occurrence exists. -/
def specContains (s p : Str) : Bool := (firstOcc s p).isSome

/-- Spec-side "the substring before its first occurrence" (the whole string
when there is no occurrence, as in the domain-suffix wording). -/
def specBefore (s p : Str) : Str :=
  match firstOcc s p with
  | some i => s.take i
  | none => s

/-- Stages (5)–(8) as the normalizer claim words them: domain-suffix
stripping keeps the trimmed substring before the first `'.'`; the prefix is
removed only if the value starts with it; the suffix only if it ends with it;
an empty final value is skipped. -/
def specFinish (cfg : Config) (v : Str) : Option Str :=
  let v := if cfg.ignoreFQDN then trimL (specBefore v ['.']) else v
  let v := trimPrefixL v cfg.trimPrefix
  let v := trimSuffixL v cfg.trimSuffix
  if v = [] then none else some v

/-- The normalizer exactly as the claim states it, stage by stage: (1) trim
and skip when empty; (2) fold case when case sensitivity is off; (3) apply
the extraction pattern when configured — no match skips, a capture group
gives the trimmed first group, otherwise the trimmed full match — and the
delimiter stage is never reached; (4) otherwise, when the line contains the
configured delimiter, keep the trimmed substring before its first
occurrence; then stages (5)–(8). -/
def normalizeSpecC1 (cfg : Config) (raw : Str) : Option Str :=
  let v := trimL raw
  if v = [] then none
  else
    let v := if cfg.caseSensitive then v else lowerL v
    match cfg.extract with
    | some re =>
      let ms := re v
      if ms = [] then none
      else if 2 ≤ ms.length then specFinish cfg (trimL (ms.getD 1 []))
      else specFinish cfg (trimL (ms.getD 0 []))
    | none =>
      if specContains v cfg.delimiter then
        specFinish cfg (trimL (specBefore v cfg.delimiter))
      else specFinish cfg v

/-- The normalizer claim with the one amendment the code forces: stage (4)
splits on the delimiter only when the delimiter is non-empty; an empty
delimiter instead keeps the trimmed first character of the line. -/
def normalizeSpecC1Amended (cfg : Config) (raw : Str) : Option Str :=
  let v := trimL raw
  if v = [] then none
  else
    let v := if cfg.caseSensitive then v else lowerL v
    match cfg.extract with
    | some re =>
      let ms := re v
      if ms = [] then none
      else if 2 ≤ ms.length then specFinish cfg (trimL (ms.getD 1 []))
      else specFinish cfg (trimL (ms.getD 0 []))
    | none =>
      if cfg.delimiter ≠ [] then
        if specContains v cfg.delimiter then
          specFinish cfg (trimL (specBefore v cfg.delimiter))
        else specFinish cfg v
      else specFinish cfg (trimL (v.take 1))

/-- The default configuration: the flag defaults of `init`
(`cmd/root.go:498–517`). -/
def cfgDefault : Config :=
  { caseSensitive := false
    delimiter := ",".toList
    extract := none
    format := "text".toList
    ignoreFQDN := false
    pipe := false
    count := false
    stats := false
    trimPrefix := []
    trimSuffix := [] }

/-- Default flags: no operation flag set, so the `switch` falls through to
`difference`. -/
def flDefault : OpFlags := ⟨false, false, false⟩

/-- A `results` value carrying an operation name outside the recognised
four, as the contract-error claim considers. -/
def rsBogus : Results :=
  { fileSetA := ⟨"a.txt".toList, ∅⟩
    fileSetB := ⟨"b.txt".toList, ∅⟩
    operation := "bogus".toList
    diffAB := ∅
    diffBA := ∅ }

/-- Pipe mode on, everything else at its default. -/
def cfgPipe : Config := { cfgDefault with pipe := true }

/-- An empty `--delimiter` value, everything else at its default. -/
def cfgEmptyDelim : Config := { cfgDefault with delimiter := [] }

/-- Both trim flags configured. -/
def cfgTrimBoth : Config :=
  { cfgDefault with trimPrefix := "a".toList, trimSuffix := "b".toList }

/-- Only `--trim-prefix` configured. -/
def cfgTrimA : Config := { cfgDefault with trimPrefix := "a".toList }

/-- Stats mode on. -/
def cfgStats : Config := { cfgDefault with stats := true }

/-- CSV format together with pipe mode. -/
def cfgCsvPipe : Config :=
  { cfgDefault with format := "csv".toList, pipe := true }

/-- JSON format together with pipe mode. -/
def cfgJsonPipe : Config :=
  { cfgDefault with format := "json".toList, pipe := true }

/-- The difference run of the csv/pipe interaction counterexample:
A empty, B containing one token, pipe mode on. -/
def rsCsvCE : Results :=
  computeResults flDefault cfgCsvPipe "a.txt".toList "b.txt".toList
    ∅ {"x".toList}

/-- A concrete stats-mode results value: A = B = one common token. -/
def rsStatsW : Results :=
  computeResults flDefault cfgStats "a.txt".toList "b.txt".toList
    {"x".toList} {"x".toList}

/-- The invariant satisfied by every token the pipeline produces when no
extraction pattern and no prefix/suffix trimming are configured: non-empty,
fixed by trimming and (when case-insensitive) by lowercasing, a single
character when the delimiter is empty, and free of the non-empty delimiter
and (under FQDN stripping) of dots. -/
def CanonInv (cfg : Config) (t : Str) : Prop :=
  t ≠ [] ∧ trimL t = t ∧
  (cfg.caseSensitive = false → lowerL t = t) ∧
  (cfg.delimiter = [] → ∃ c, t = [c]) ∧
  (cfg.delimiter ≠ [] → containsL t cfg.delimiter = false) ∧
  (cfg.ignoreFQDN = true → containsL t ['.'] = false)

theorem char_toNat_ofNat_of_valid {n : Nat} (h : n.isValidChar) :
    (Char.ofNat n).toNat = n := by
  rw [Char.ofNat, dif_pos h]
  rfl

theorem char_eq_iff_toNat {c d : Char} : c = d ↔ c.toNat = d.toNat := by
  constructor
  · intro h; rw [h]
  · intro h; exact Char.ext (UInt32.toNat.inj h)

theorem ws_eq_false_of_toNat {c : Char}
    (h : c.toNat ≠ 32 ∧ c.toNat ≠ 9 ∧ c.toNat ≠ 13 ∧ c.toNat ≠ 10) :
    c.isWhitespace = false := by
  simp only [Char.isWhitespace, Bool.or_eq_false_iff, decide_eq_false_iff_not]
  refine ⟨⟨⟨?_, ?_⟩, ?_⟩, ?_⟩ <;> intro e
  · exact h.1 (char_eq_iff_toNat.mp e)
  · exact h.2.1 (char_eq_iff_toNat.mp e)
  · exact h.2.2.1 (char_eq_iff_toNat.mp e)
  · exact h.2.2.2 (char_eq_iff_toNat.mp e)

theorem isWhitespace_toLower (c : Char) :
    (Char.toLower c).isWhitespace = c.isWhitespace := by
  by_cases h : c.toNat ≥ 65 ∧ c.toNat ≤ 90
  · have h1 : Char.toLower c = Char.ofNat (c.toNat + 32) := by
      rw [Char.toLower, if_pos h]
    have hv : (c.toNat + 32).isValidChar := Or.inl (by omega)
    have h2 : (Char.toLower c).toNat = c.toNat + 32 := by
      rw [h1]; exact char_toNat_ofNat_of_valid hv
    rw [ws_eq_false_of_toNat (by omega), ws_eq_false_of_toNat (c := c) (by omega)]
  · rw [Char.toLower, if_neg h]

theorem toLower_eq_pos {c : Char} (h : c.toNat ≥ 65 ∧ c.toNat ≤ 90) :
    c.toLower = Char.ofNat (c.toNat + 32) := by
  rw [Char.toLower, if_pos h]

theorem toLower_eq_neg {c : Char} (h : ¬(c.toNat ≥ 65 ∧ c.toNat ≤ 90)) :
    c.toLower = c := by
  rw [Char.toLower, if_neg h]

theorem toLower_toLower (c : Char) :
    Char.toLower (Char.toLower c) = Char.toLower c := by
  by_cases h : c.toNat ≥ 65 ∧ c.toNat ≤ 90
  · rw [toLower_eq_pos h]
    exact toLower_eq_neg
      (by rw [char_toNat_ofNat_of_valid (Or.inl (by omega))]; omega)
  · rw [toLower_eq_neg h]
    exact toLower_eq_neg h

theorem dropWhile_head_false {p : Char → Bool} :
    ∀ (l : Str) (c : Char) (l' : Str), l.dropWhile p = c :: l' → p c = false := by
  intro l
  induction l with
  | nil => intro c l' h; simp [List.dropWhile] at h
  | cons a t ih =>
    intro c l' h
    by_cases hp : p a
    · rw [List.dropWhile_cons_of_pos hp] at h; exact ih _ _ h
    · rw [List.dropWhile_cons_of_neg hp] at h
      cases h
      simpa using hp

theorem trimL_eq_rdrop (s : Str) :
    trimL s = List.rdropWhile Char.isWhitespace (s.dropWhile Char.isWhitespace) := rfl

theorem dropWhile_of_trimL_pref {s u : Str}
    (h : s <+: u.dropWhile Char.isWhitespace)
    (hh : s ≠ []) : s.dropWhile Char.isWhitespace = s := by
  obtain ⟨c, s', rfl⟩ := List.exists_cons_of_ne_nil hh
  obtain ⟨r, hr⟩ := h
  have hc : Char.isWhitespace c = false := by
    rcases hd : u.dropWhile Char.isWhitespace with _ | ⟨d, t⟩
    · rw [hd] at hr; simp at hr
    · rw [hd] at hr
      have : d = c := by
        have := hr
        cases this
        rfl
      exact this ▸ dropWhile_head_false u d t hd
  rw [List.dropWhile_cons_of_neg (by simp [hc])]

theorem trimL_idem (s : Str) : trimL (trimL s) = trimL s := by
  rw [trimL_eq_rdrop, trimL_eq_rdrop]
  by_cases hne : List.rdropWhile Char.isWhitespace (s.dropWhile Char.isWhitespace) = []
  · rw [hne]
    simp [List.rdropWhile_nil]
  · have h1 : (List.rdropWhile Char.isWhitespace
        (s.dropWhile Char.isWhitespace)).dropWhile Char.isWhitespace =
        List.rdropWhile Char.isWhitespace (s.dropWhile Char.isWhitespace) :=
      dropWhile_of_trimL_pref (List.rdropWhile_prefix _ _) hne
    rw [h1]
    exact List.rdropWhile_idempotent _ _

theorem trimL_isInfix (s : Str) : trimL s <:+: s :=
  (List.rdropWhile_prefix _ _).isInfix.trans
    (List.dropWhile_suffix _).isInfix

theorem trimmed_dropWhile_eq {s : Str} (h : trimL s = s) :
    s.dropWhile Char.isWhitespace = s := by
  have h1 : s.dropWhile Char.isWhitespace <:+ s := List.dropWhile_suffix _
  have h2 : s <+: s.dropWhile Char.isWhitespace := by
    conv_lhs => rw [← h]
    exact List.rdropWhile_prefix _ _
  exact h1.eq_of_length_le h2.length_le

theorem trimmed_head_not_ws {s : Str} (h : trimL s = s) {c : Char} {t : Str}
    (he : s = c :: t) : c.isWhitespace = false := by
  have := trimmed_dropWhile_eq h
  rw [he] at this
  exact dropWhile_head_false _ _ _ this

theorem trimmed_getLast_not_ws {s : Str} (h : trimL s = s) (hne : s ≠ []) :
    (s.getLast hne).isWhitespace = false := by
  have hd : s.dropWhile Char.isWhitespace = s := trimmed_dropWhile_eq h
  have hr : List.rdropWhile Char.isWhitespace s = s := by
    conv_lhs => rw [← hd]
    rw [← trimL_eq_rdrop]
    exact h
  have := (List.rdropWhile_eq_self_iff).mp hr hne
  simpa using this

theorem trimL_single_not_ws {c : Char} (h : c.isWhitespace = false) :
    trimL [c] = [c] := by
  simp [trimL, List.dropWhile, h]

theorem lowerL_trimL (s : Str) : trimL (lowerL s) = lowerL (trimL s) := by
  have hws : (fun c => Char.isWhitespace (Char.toLower c)) = Char.isWhitespace := by
    funext c
    exact isWhitespace_toLower c
  simp only [trimL, lowerL]
  rw [List.dropWhile_map, ← List.map_reverse, List.dropWhile_map, ← List.map_reverse]
  simp only [Function.comp_def, hws]

theorem lowerL_idem (s : Str) : lowerL (lowerL s) = lowerL s := by
  simp only [lowerL, List.map_map]
  exact List.map_congr_left (fun a _ => toLower_toLower a)

theorem lowerL_fixed_of_mem {t : Str} (h : ∀ c ∈ t, Char.toLower c = c) :
    lowerL t = t := by
  have := List.map_congr_left (f := Char.toLower) (g := id) (l := t)
    (fun a ha => h a ha)
  simpa using this

theorem mem_lowerL_fixed {s : Str} {c : Char} (h : c ∈ lowerL s) :
    Char.toLower c = c := by
  simp only [lowerL, List.mem_map] at h
  obtain ⟨a, _, rfl⟩ := h
  exact toLower_toLower a

theorem hasPrefixL_iff : ∀ {s p : Str}, hasPrefixL s p = true ↔ p <+: s := by
  intro s
  induction s with
  | nil =>
    intro p
    cases p with
    | nil => simp [hasPrefixL]
    | cons d p' => simp [hasPrefixL]
  | cons c s' ih =>
    intro p
    cases p with
    | nil => simp [hasPrefixL]
    | cons d p' =>
      simp only [hasPrefixL, Bool.and_eq_true, beq_iff_eq, List.cons_prefix_cons, ih]
      constructor
      · rintro ⟨rfl, h⟩; exact ⟨rfl, h⟩
      · rintro ⟨rfl, h⟩; exact ⟨rfl, h⟩

theorem containsL_iff : ∀ {s p : Str}, containsL s p = true ↔ p <:+: s := by
  intro s
  induction s with
  | nil =>
    intro p
    cases p with
    | nil => simp [containsL, hasPrefixL]
    | cons d p' => simp [containsL, hasPrefixL]
  | cons c s' ih =>
    intro p
    simp only [containsL, Bool.or_eq_true, hasPrefixL_iff, ih, List.infix_cons_iff]

theorem containsL_nil_right (s : Str) : containsL s [] = true := by
  cases s with
  | nil => simp [containsL, hasPrefixL]
  | cons c s' => simp [containsL, hasPrefixL]

theorem beforeFirst_isPrefix : ∀ (s p : Str), beforeFirst s p <+: s := by
  intro s
  induction s with
  | nil => intro p; simp [beforeFirst]
  | cons c s' ih =>
    intro p
    simp only [beforeFirst]
    split
    · exact List.nil_prefix
    · exact List.cons_prefix_cons.mpr ⟨rfl, ih p⟩

theorem beforeFirst_eq_self : ∀ {s p : Str}, containsL s p = false → beforeFirst s p = s := by
  intro s
  induction s with
  | nil => intro p h; simp [beforeFirst]
  | cons c s' ih =>
    intro p h
    simp only [containsL, Bool.or_eq_false_iff] at h
    simp [beforeFirst, h.1, ih h.2]

theorem not_contains_beforeFirst : ∀ {s p : Str}, p ≠ [] →
    containsL (beforeFirst s p) p = false := by
  intro s
  induction s with
  | nil =>
    intro p hp
    obtain ⟨d, p', rfl⟩ := List.exists_cons_of_ne_nil hp
    simp [beforeFirst, containsL, hasPrefixL]
  | cons c s' ih =>
    intro p hp
    by_cases h : hasPrefixL (c :: s') p = true
    · simp only [beforeFirst, h, if_true]
      obtain ⟨d, p', rfl⟩ := List.exists_cons_of_ne_nil hp
      simp [containsL, hasPrefixL]
    · simp only [beforeFirst, h, if_false]
      have h2 : containsL (beforeFirst s' p) p = false := ih hp
      simp only [containsL, Bool.or_eq_false_iff]
      refine ⟨?_, h2⟩
      by_contra hcc
      rw [Bool.not_eq_false] at hcc
      have h3 : p <+: c :: beforeFirst s' p := hasPrefixL_iff.mp hcc
      have h4 : c :: beforeFirst s' p <+: c :: s' :=
        List.cons_prefix_cons.mpr ⟨rfl, beforeFirst_isPrefix s' p⟩
      exact h (hasPrefixL_iff.mpr (h3.trans h4))

theorem contains_of_isInfix {t s p : Str} (hi : t <:+: s)
    (h : containsL t p = true) : containsL s p = true :=
  containsL_iff.mpr ((containsL_iff.mp h).trans hi)

theorem not_contains_of_isInfix {t s p : Str} (hi : t <:+: s)
    (h : containsL s p = false) : containsL t p = false := by
  by_contra hc
  rw [Bool.not_eq_false] at hc
  rw [contains_of_isInfix hi hc] at h
  simp at h

theorem splitHead_of_ne {s p : Str} (hp : p ≠ []) :
    splitHead s p = beforeFirst s p := by
  simp [splitHead, hp]

theorem splitHead_nil_eq_take (s : Str) : splitHead s [] = s.take 1 := by
  cases s <;> rfl

theorem trimPrefixL_nil (s : Str) : trimPrefixL s [] = s := by
  simp [trimPrefixL, hasPrefixL]

theorem trimSuffixL_nil (s : Str) : trimSuffixL s [] = s := by
  simp [trimSuffixL, hasSuffixL, hasPrefixL]

theorem trimPrefixL_suffix (s p : Str) : trimPrefixL s p <:+ s := by
  unfold trimPrefixL
  split
  · exact List.drop_suffix _ _
  · exact List.suffix_refl s

theorem trimSuffixL_prefix (s p : Str) : trimSuffixL s p <+: s := by
  unfold trimSuffixL
  split
  · exact List.take_prefix _ _
  · exact List.prefix_refl s

theorem containsL_eq_specContains : ∀ (s p : Str), containsL s p = specContains s p := by
  intro s
  induction s with
  | nil =>
    intro p
    cases p with
    | nil => simp [containsL, hasPrefixL, specContains, firstOcc]
    | cons d p' => simp [containsL, hasPrefixL, specContains, firstOcc]
  | cons c s' ih =>
    intro p
    simp only [containsL, specContains, firstOcc]
    by_cases h : hasPrefixL (c :: s') p = true
    · simp [h]
    · rw [Bool.not_eq_true] at h
      simp [h, ih p, specContains, Option.isSome_map]

theorem beforeFirst_eq_specBefore {p : Str} (hp : p ≠ []) :
    ∀ (s : Str), beforeFirst s p = specBefore s p := by
  intro s
  induction s with
  | nil =>
    obtain ⟨d, p', rfl⟩ := List.exists_cons_of_ne_nil hp
    simp [beforeFirst, specBefore, firstOcc]
  | cons c s' ih =>
    by_cases h : hasPrefixL (c :: s') p = true
    · simp [beforeFirst, h, specBefore, firstOcc]
    · rw [Bool.not_eq_true] at h
      simp only [beforeFirst, h, Bool.false_eq_true, if_false, specBefore, firstOcc]
      cases ho : firstOcc s' p with
      | none =>
        rw [ih]
        simp [specBefore, ho]
      | some i =>
        rw [ih]
        simp [specBefore, ho, List.take_succ_cons]

theorem mem_foldl_insert (cfg : Config) (t : Str) :
    ∀ (lines : List Str) (s0 : Finset Str),
      (t ∈ lines.foldl
        (fun s l =>
          match normalizeLine cfg l with
          | some u => insert u s
          | none => s) s0) ↔
      t ∈ s0 ∨ ∃ l ∈ lines, normalizeLine cfg l = some t := by
  intro lines
  induction lines with
  | nil => intro s0; simp
  | cons a ls ih =>
    intro s0
    simp only [List.foldl_cons, ih, List.mem_cons]
    cases ha : normalizeLine cfg a with
    | none =>
      constructor
      · rintro (h | ⟨l, hl, he⟩)
        · exact Or.inl h
        · exact Or.inr ⟨l, Or.inr hl, he⟩
      · rintro (h | ⟨l, hl | hl, he⟩)
        · exact Or.inl h
        · rw [hl] at he; rw [he] at ha; cases ha
        · exact Or.inr ⟨l, hl, he⟩
    | some u =>
      simp only [Finset.mem_insert]
      constructor
      · rintro ((rfl | h) | ⟨l, hl, he⟩)
        · exact Or.inr ⟨a, Or.inl rfl, ha⟩
        · exact Or.inl h
        · exact Or.inr ⟨l, Or.inr hl, he⟩
      · rintro (h | ⟨l, hl | hl, he⟩)
        · exact Or.inl (Or.inr h)
        · rw [hl] at he
          rw [he] at ha
          cases ha
          exact Or.inl (Or.inl rfl)
        · exact Or.inr ⟨l, hl, he⟩

theorem mem_fileToSet {cfg : Config} {lines : List Str} {t : Str} :
    t ∈ fileToSet cfg lines ↔ ∃ l ∈ lines, normalizeLine cfg l = some t := by
  rw [fileToSet, mem_foldl_insert]
  simp

theorem trimmed_stage2 (cfg : Config) {s : Str} (hs : trimL s = s) :
    trimL (if cfg.caseSensitive then s else lowerL s) =
      (if cfg.caseSensitive then s else lowerL s) := by
  split
  · exact hs
  · rw [lowerL_trimL, hs]

theorem finishLine_some {cfg : Config} {u t : Str} (h : finishLine cfg u = some t) :
    t ≠ [] ∧
      t = (let v := if cfg.ignoreFQDN then trimL (splitHead u ['.']) else u
           let v1 := if cfg.trimPrefix ≠ [] then trimPrefixL v cfg.trimPrefix else v
           if cfg.trimSuffix ≠ [] then trimSuffixL v1 cfg.trimSuffix else v1) := by
  simp only [finishLine] at h
  repeat' split at h
  all_goals cases h
  all_goals simp_all

theorem normalizeLine_some_base {cfg : Config} {raw t : Str}
    (h : normalizeLine cfg raw = some t) :
    ∃ u, trimL u = u ∧ finishLine cfg u = some t := by
  simp only [normalizeLine] at h
  split at h
  · cases h
  · have hl2 : trimL (if cfg.caseSensitive = true then trimL raw
        else lowerL (trimL raw)) =
        (if cfg.caseSensitive = true then trimL raw else lowerL (trimL raw)) :=
      trimmed_stage2 cfg (trimL_idem raw)
    generalize hg : (if cfg.caseSensitive = true then trimL raw
        else lowerL (trimL raw)) = l2 at h hl2
    split at h
    · split at h
      · exact ⟨_, trimL_idem _, h⟩
      · split at h
        · exact ⟨_, trimL_idem _, h⟩
        · cases h
    · split at h
      · exact ⟨_, trimL_idem _, h⟩
      · exact ⟨l2, hl2, h⟩

theorem head_not_ws_of_prefix {v t : Str} (hv : trimL v = v) (hp : t <+: v)
    (ht : t ≠ []) : ∃ c ∈ t, c.isWhitespace = false := by
  obtain ⟨c, t', rfl⟩ := List.exists_cons_of_ne_nil ht
  obtain ⟨r, hr⟩ := hp
  refine ⟨c, List.mem_cons_self c t', ?_⟩
  exact trimmed_head_not_ws hv (by rw [← hr]; rfl)

theorem last_not_ws_of_suffix {v t : Str} (hv : trimL v = v) (hs : t <:+ v)
    (ht : t ≠ []) : ∃ c ∈ t, c.isWhitespace = false := by
  obtain ⟨r, rfl⟩ := hs
  have hvne : r ++ t ≠ [] := by simp [ht]
  refine ⟨t.getLast ht, List.getLast_mem ht, ?_⟩
  have h1 : (r ++ t).getLast hvne = t.getLast ht :=
    List.getLast_append_of_ne_nil ht
  rw [← h1]
  exact trimmed_getLast_not_ws hv hvne

theorem normalizeLine_token_shape {cfg : Config} {raw t : Str}
    (h : normalizeLine cfg raw = some t) :
    t ≠ [] ∧ ((cfg.trimPrefix = [] ∨ cfg.trimSuffix = []) →
      ∃ c ∈ t, c.isWhitespace = false) := by
  obtain ⟨u, hu, hf⟩ := normalizeLine_some_base h
  obtain ⟨hne, he⟩ := finishLine_some hf
  have hv : trimL (if cfg.ignoreFQDN then trimL (splitHead u ['.']) else u) =
      (if cfg.ignoreFQDN then trimL (splitHead u ['.']) else u) := by
    split
    · exact trimL_idem _
    · exact hu
  refine ⟨hne, ?_⟩
  rintro (hp | hs)
  · -- no prefix trimming: t is a prefix of the stage-5 value
    rw [hp] at he
    simp only [ne_eq, not_true_eq_false, if_false] at he
    have hpre : t <+: (if cfg.ignoreFQDN then trimL (splitHead u ['.']) else u) := by
      rw [he]
      split
      · exact trimSuffixL_prefix _ _
      · exact List.prefix_refl _
    exact head_not_ws_of_prefix hv hpre hne
  · -- no suffix trimming: t is a suffix of the stage-5 value
    rw [hs] at he
    simp only [ne_eq, not_true_eq_false, if_false] at he
    have hsuf : t <:+ (if cfg.ignoreFQDN then trimL (splitHead u ['.']) else u) := by
      rw [he]
      split
      · exact trimPrefixL_suffix _ _
      · exact List.suffix_refl _
    exact last_not_ws_of_suffix hv hsuf hne

theorem lowerL_fixed_mem {s : Str} {c : Char} (h : lowerL s = s) (hc : c ∈ s) :
    Char.toLower c = c := by
  rw [← h] at hc
  exact mem_lowerL_fixed hc

theorem hasPrefixL_single (c d : Char) :
    hasPrefixL [c] [d] = (c == d) := by
  simp [hasPrefixL]

theorem containsL_single (c d : Char) :
    containsL [c] [d] = (c == d) := by
  simp [containsL, hasPrefixL]

theorem finishLine_no_trims {cfg : Config} {u t : Str}
    (hp : cfg.trimPrefix = []) (hs : cfg.trimSuffix = [])
    (h : finishLine cfg u = some t) :
    t ≠ [] ∧ t = (if cfg.ignoreFQDN then trimL (splitHead u ['.']) else u) := by
  obtain ⟨hne, he⟩ := finishLine_some h
  rw [hp, hs] at he
  simp only [ne_eq, not_true_eq_false, if_false] at he
  exact ⟨hne, he⟩

theorem finishLine_fixed {cfg : Config} {t : Str}
    (hp : cfg.trimPrefix = []) (hs : cfg.trimSuffix = [])
    (hne : t ≠ []) (htr : trimL t = t)
    (hdot : cfg.ignoreFQDN = true → containsL t ['.'] = false) :
    finishLine cfg t = some t := by
  simp only [finishLine, hp, hs, ne_eq, not_true_eq_false, if_false]
  have h5 : (if cfg.ignoreFQDN = true then trimL (splitHead t ['.']) else t) = t := by
    split
    · next hf =>
      rw [splitHead_of_ne (by simp), beforeFirst_eq_self (hdot hf), htr]
    · rfl
  rw [h5, if_neg hne]

theorem canonInv_from_stage5 {cfg : Config} {u t : Str}
    (hp : cfg.trimPrefix = []) (hs : cfg.trimSuffix = [])
    (hut : trimL u = u)
    (h : finishLine cfg u = some t) :
    t ≠ [] ∧ trimL t = t ∧ t <:+: u ∧
      (cfg.ignoreFQDN = true → containsL t ['.'] = false) := by
  obtain ⟨hne, he⟩ := finishLine_no_trims hp hs h
  by_cases hf : cfg.ignoreFQDN = true
  · rw [if_pos hf, splitHead_of_ne (by simp)] at he
    subst he
    refine ⟨hne, trimL_idem _, ?_, fun _ => ?_⟩
    · exact (trimL_isInfix _).trans (beforeFirst_isPrefix _ _).isInfix
    · exact not_contains_of_isInfix (trimL_isInfix _)
        (not_contains_beforeFirst (by simp))
  · rw [if_neg hf] at he
    subst he
    exact ⟨hne, hut, List.infix_rfl, fun hff => absurd hff hf⟩

theorem canonInv_of_normalizeLine {cfg : Config} {raw t : Str}
    (hex : cfg.extract = none) (hp : cfg.trimPrefix = [])
    (hs : cfg.trimSuffix = [])
    (h : normalizeLine cfg raw = some t) : CanonInv cfg t := by
  simp only [normalizeLine, hex] at h
  split at h
  · cases h
  · next hraw =>
    have hl2t := trimmed_stage2 cfg (trimL_idem raw)
    have hl2low : cfg.caseSensitive = false →
        lowerL (if cfg.caseSensitive = true then trimL raw
          else lowerL (trimL raw)) =
        (if cfg.caseSensitive = true then trimL raw
          else lowerL (trimL raw)) := by
      intro hc
      rw [hc]
      simp only [Bool.false_eq_true, if_false]
      exact lowerL_idem _
    have hl2ne : (if cfg.caseSensitive = true then trimL raw
        else lowerL (trimL raw)) ≠ [] := by
      split
      · exact hraw
      · simpa [lowerL] using hraw
    generalize (if cfg.caseSensitive = true then trimL raw
        else lowerL (trimL raw)) = l2 at h hl2t hl2low hl2ne
    split at h
    · next hcont =>
      by_cases hd : cfg.delimiter = []
      · rw [hd] at h
        obtain ⟨c, l2', rfl⟩ := List.exists_cons_of_ne_nil hl2ne
        have hc : c.isWhitespace = false := trimmed_head_not_ws hl2t rfl
        have hsp : splitHead (c :: l2') [] = [c] := rfl
        rw [hsp, trimL_single_not_ws hc] at h
        obtain ⟨hne, he⟩ := finishLine_no_trims hp hs h
        have hlowc : cfg.caseSensitive = false → lowerL [c] = [c] := by
          intro hcs
          have := lowerL_fixed_mem (hl2low hcs) (List.mem_cons_self c l2')
          simp [lowerL, this]
        by_cases hf : cfg.ignoreFQDN = true
        · rw [if_pos hf, splitHead_of_ne (by simp)] at he
          by_cases hcd : c = '.'
          · rw [hcd] at he
            have hb : beforeFirst ['.'] ['.'] = [] := by
              simp [beforeFirst, hasPrefixL]
            rw [hb] at he
            exact absurd he (by simp [trimL, List.dropWhile, hne])
          · have hb : beforeFirst [c] ['.'] = [c] := by
              simp [beforeFirst, hasPrefixL, hcd]
            rw [hb, trimL_single_not_ws hc] at he
            subst he
            refine ⟨by simp, trimL_single_not_ws hc, hlowc, fun _ => ⟨c, rfl⟩,
              fun hdd => absurd hd hdd, fun _ => ?_⟩
            rw [containsL_single]
            simp [hcd]
        · rw [if_neg hf] at he
          subst he
          exact ⟨by simp, trimL_single_not_ws hc, hlowc, fun _ => ⟨c, rfl⟩,
            fun hdd => absurd hd hdd, fun hff => absurd hff hf⟩
      · rw [splitHead_of_ne hd] at h
        obtain ⟨hne, htr, hinfu, hdot⟩ :=
          canonInv_from_stage5 hp hs (trimL_idem _) h
        have hchain : t <:+: l2 :=
          hinfu.trans ((trimL_isInfix _).trans (beforeFirst_isPrefix _ _).isInfix)
        refine ⟨hne, htr, ?_, fun hdd => absurd hdd hd, fun _ => ?_, hdot⟩
        · intro hcs
          exact lowerL_fixed_of_mem
            (fun c hcm => lowerL_fixed_mem (hl2low hcs) (hchain.subset hcm))
        · exact not_contains_of_isInfix hinfu
            (not_contains_of_isInfix (trimL_isInfix _) (not_contains_beforeFirst hd))
    · next hcont =>
      have hcf : containsL l2 cfg.delimiter = false := by
        rwa [Bool.not_eq_true] at hcont
      have hd : cfg.delimiter ≠ [] := by
        intro hdd
        rw [hdd, containsL_nil_right] at hcf
        cases hcf
      obtain ⟨hne, htr, hinfu, hdot⟩ := canonInv_from_stage5 hp hs hl2t h
      refine ⟨hne, htr, ?_, fun hdd => absurd hdd hd,
        fun _ => not_contains_of_isInfix hinfu hcf, hdot⟩
      intro hcs
      exact lowerL_fixed_of_mem
        (fun c hcm => lowerL_fixed_mem (hl2low hcs) (hinfu.subset hcm))

theorem normalizeLine_of_canonInv {cfg : Config} {t : Str}
    (hex : cfg.extract = none) (hp : cfg.trimPrefix = [])
    (hs : cfg.trimSuffix = [])
    (hI : CanonInv cfg t) : normalizeLine cfg t = some t := by
  obtain ⟨hne, htr, hlow, hsing, hndel, hdot⟩ := hI
  simp only [normalizeLine, hex, htr, if_neg hne]
  have hl2 : (if cfg.caseSensitive = true then t else lowerL t) = t := by
    split
    · rfl
    · next hc => exact hlow (by simpa using hc)
  rw [hl2]
  by_cases hd : cfg.delimiter = []
  · obtain ⟨c, rfl⟩ := hsing hd
    rw [hd, containsL_nil_right]
    simp only [if_true]
    have hsp : splitHead [c] [] = [c] := rfl
    rw [hsp, htr]
    exact finishLine_fixed hp hs hne htr hdot
  · have hcf : containsL t cfg.delimiter = false := hndel hd
    rw [hcf]
    simp only [Bool.false_eq_true, if_false]
    exact finishLine_fixed hp hs hne htr hdot

theorem finishLine_eq_specFinish (cfg : Config) (v : Str) :
    finishLine cfg v = specFinish cfg v := by
  have h5 : ∀ w : Str, splitHead w ['.'] = specBefore w ['.'] := by
    intro w
    rw [splitHead_of_ne (by simp), beforeFirst_eq_specBefore (by simp)]
  have h6 : ∀ w : Str,
      (if cfg.trimPrefix ≠ [] then trimPrefixL w cfg.trimPrefix else w) =
        trimPrefixL w cfg.trimPrefix := by
    intro w
    split
    · rfl
    · next hh =>
      have hpe : cfg.trimPrefix = [] := by simpa using hh
      rw [hpe, trimPrefixL_nil]
  have h7 : ∀ w : Str,
      (if cfg.trimSuffix ≠ [] then trimSuffixL w cfg.trimSuffix else w) =
        trimSuffixL w cfg.trimSuffix := by
    intro w
    split
    · rfl
    · next hh =>
      have hse : cfg.trimSuffix = [] := by simpa using hh
      rw [hse, trimSuffixL_nil]
  simp only [finishLine, specFinish, h5, h6, h7]

theorem normalizeLine_eq_specAmended (cfg : Config) (raw : Str) :
    normalizeLine cfg raw = normalizeSpecC1Amended cfg raw := by
  simp only [normalizeLine, normalizeSpecC1Amended, finishLine_eq_specFinish]
  split
  · rfl
  · generalize (if cfg.caseSensitive = true then trimL raw
        else lowerL (trimL raw)) = l2
    cases hex : cfg.extract with
    | none =>
      by_cases hd : cfg.delimiter = []
      · rw [hd]
        simp only [containsL_nil_right, if_true, ne_eq, not_true_eq_false,
          Bool.false_eq_true, if_false]
        rw [splitHead_nil_eq_take]
      · rw [containsL_eq_specContains]
        simp only [ne_eq, hd, not_false_eq_true, if_true]
        split
        · rw [splitHead_of_ne hd, beforeFirst_eq_specBefore hd]
        · rfl
    | some re =>
      dsimp only
      by_cases h0 : re l2 = []
      · simp [h0]
      · have h1 : 1 ≤ (re l2).length := by
          cases hl : (re l2).length with
          | zero => exact absurd (List.length_eq_zero.mp hl) h0
          | succ n => omega
        by_cases h2 : 2 ≤ (re l2).length
        · rw [if_pos (by omega : 1 < (re l2).length), if_neg h0, if_pos h2]
        · have hlen : (re l2).length = 1 := by omega
          rw [if_neg (by omega : ¬1 < (re l2).length), if_pos hlen,
            if_neg h0, if_neg h2]

/-- C2 (amended): for a results value whose operation is not one of the four
recognised names, `printSet` returns an error exactly in standard text mode
with pipe off; in json, csv, count, stats or pipe mode it succeeds, because
the text-mode header switch is the only place the operation is validated. -/
theorem printSet_error_iff (cfg : Config) (r : Results)
    (hop : r.operation ∉ validOps) :
    (∃ e, printSet cfg r = Except.error e) ↔
      (cfg.format ≠ "json".toList ∧ cfg.format ≠ "csv".toList ∧
       cfg.count = false ∧ cfg.stats = false ∧ cfg.pipe = false) := by
  by_cases hj : cfg.format = "json".toList
  · have heq : printSet cfg r = Except.ok (PrintOut.json (printJSON r)) := by
      simp only [printSet, if_pos hj]
    rw [heq]
    simp [hj]
  · by_cases hc : cfg.format = "csv".toList
    · have heq : printSet cfg r = Except.ok (PrintOut.csv (printCSV r)) := by
        simp only [printSet, if_neg hj, if_pos hc]
      rw [heq]
      simp [hc]
    · by_cases hcnt : cfg.count = true
      · have heq : printSet cfg r =
            Except.ok (PrintOut.countOut (printCount r)) := by
          simp only [printSet, if_neg hj, if_neg hc, if_pos hcnt]
        rw [heq]
        simp [hcnt]
      · by_cases hst : cfg.stats = true
        · have heq : printSet cfg r =
              Except.ok (PrintOut.statsOut (printStats r)) := by
            simp only [printSet, if_neg hj, if_neg hc, if_neg hcnt, if_pos hst]
          rw [heq]
          simp [hst]
        · by_cases hpi : cfg.pipe = true
          · have heq : printSet cfg r = Except.ok (PrintOut.text
                ((toSortedSlice r.diffAB).map OutLine.element)) := by
              simp only [printSet, printText, if_neg hj, if_neg hc, if_neg hcnt,
                if_neg hst, if_pos hpi]
              rfl
            rw [heq]
            simp [hpi]
          · have heq : printSet cfg r =
                Except.error ("invalid operation: ".toList ++ r.operation) := by
              simp only [printSet, printText, if_neg hj, if_neg hc, if_neg hcnt,
                if_neg hst, if_neg hpi, if_neg hop]
              rfl
            rw [heq]
            constructor
            · intro
              exact ⟨hj, hc, by simpa using hcnt, by simpa using hst,
                by simpa using hpi⟩
            · intro
              exact ⟨_, rfl⟩

theorem computeResults_cases (fl : OpFlags) (cfg : Config) (pa pb : Str)
    (A B : Finset Str) :
    (fl.intersectionFlag = true ∧
      computeResults fl cfg pa pb A B =
        ⟨⟨pa, A⟩, ⟨pb, B⟩, "intersection".toList, A ∩ B, ∅⟩) ∨
    (fl.intersectionFlag = false ∧ fl.unionFlag = true ∧
      computeResults fl cfg pa pb A B =
        ⟨⟨pa, A⟩, ⟨pb, B⟩, "union".toList, A ∪ B, ∅⟩) ∨
    (fl.intersectionFlag = false ∧ fl.unionFlag = false ∧
      fl.symmetricDiffFlag = true ∧
      computeResults fl cfg pa pb A B =
        ⟨⟨pa, A⟩, ⟨pb, B⟩, "symmetric-difference".toList,
          (A \ B) ∪ (B \ A), ∅⟩) ∨
    (fl.intersectionFlag = false ∧ fl.unionFlag = false ∧
      fl.symmetricDiffFlag = false ∧
      computeResults fl cfg pa pb A B =
        ⟨⟨pa, A⟩, ⟨pb, B⟩, "difference".toList, A \ B,
          if cfg.pipe then ∅ else B \ A⟩) := by
  rcases fl with ⟨i, u, sd⟩
  cases i
  · cases u
    · cases sd
      · exact Or.inr (Or.inr (Or.inr ⟨rfl, rfl, rfl, rfl⟩))
      · exact Or.inr (Or.inr (Or.inl ⟨rfl, rfl, rfl, rfl⟩))
    · exact Or.inr (Or.inl ⟨rfl, rfl, rfl⟩)
  · exact Or.inl ⟨rfl, rfl⟩

theorem opNames_ne_difference :
    "intersection".toList ≠ "difference".toList ∧
    "union".toList ≠ "difference".toList ∧
    "symmetric-difference".toList ≠ "difference".toList := by
  refine ⟨?_, ?_, ?_⟩ <;> decide

/-- C4: the secondary result set diffBA is non-empty only when the operation
is difference and pipe mode is off; it then equals B minus A, and with pipe
mode on it stays empty (B minus A is never computed). -/
theorem C4_secondary_set (fl : OpFlags) (cfg : Config) (pa pb : Str)
    (A B : Finset Str) :
    ((computeResults fl cfg pa pb A B).diffBA ≠ ∅ →
      (computeResults fl cfg pa pb A B).operation = "difference".toList ∧
        cfg.pipe = false) ∧
    ((computeResults fl cfg pa pb A B).operation = "difference".toList →
      cfg.pipe = false →
      (computeResults fl cfg pa pb A B).diffBA = B \ A) ∧
    (cfg.pipe = true → (computeResults fl cfg pa pb A B).diffBA = ∅) := by
  rcases computeResults_cases fl cfg pa pb A B with
    ⟨_, heq⟩ | ⟨_, _, heq⟩ | ⟨_, _, _, heq⟩ | ⟨_, _, _, heq⟩ <;> rw [heq]
  · exact ⟨fun h => absurd rfl h, fun h => absurd h opNames_ne_difference.1,
      fun _ => rfl⟩
  · exact ⟨fun h => absurd rfl h, fun h => absurd h opNames_ne_difference.2.1,
      fun _ => rfl⟩
  · exact ⟨fun h => absurd rfl h, fun h => absurd h opNames_ne_difference.2.2,
      fun _ => rfl⟩
  · by_cases hp : cfg.pipe = true
    · refine ⟨fun h => absurd (by simp [hp]) h, fun _ hpf => ?_, fun _ => by simp [hp]⟩
      rw [hp] at hpf
      cases hpf
    · have hpf : cfg.pipe = false := by simpa using hp
      exact ⟨fun _ => ⟨rfl, hpf⟩, fun _ _ => by simp [hpf], fun hpt => absurd hpt hp⟩

/-- C4 (witness): a difference run without pipe mode has diffBA = B minus A
at concrete inputs. -/
theorem C4_witness :
    (computeResults flDefault cfgDefault "a.txt".toList "b.txt".toList
      {"x".toList} {"y".toList}).diffBA = {"y".toList} \ {"x".toList} :=
  (C4_secondary_set flDefault cfgDefault "a.txt".toList "b.txt".toList
    {"x".toList} {"y".toList}).2.1 (by decide) rfl

/-- C5: over the operation branches, the intersection result is contained in
the union result, the union result is the union of difference(A,B),
difference(B,A) and intersection(A,B), and the symmetric-difference result
equals (A minus B) union (B minus A) and is the same for (A,B) and (B,A). -/
theorem C5_algebra (cfg : Config) (pa pb : Str) (A B : Finset Str) :
    (computeResults ⟨true, false, false⟩ cfg pa pb A B).diffAB ⊆
      (computeResults ⟨false, true, false⟩ cfg pa pb A B).diffAB ∧
    (computeResults ⟨false, true, false⟩ cfg pa pb A B).diffAB =
      (computeResults flDefault cfg pa pb A B).diffAB ∪
        (computeResults flDefault cfg pa pb B A).diffAB ∪
        (computeResults ⟨true, false, false⟩ cfg pa pb A B).diffAB ∧
    (computeResults ⟨false, false, true⟩ cfg pa pb A B).diffAB =
      (computeResults flDefault cfg pa pb A B).diffAB ∪
        (computeResults flDefault cfg pa pb B A).diffAB ∧
    (computeResults ⟨false, false, true⟩ cfg pa pb A B).diffAB =
      (computeResults ⟨false, false, true⟩ cfg pa pb B A).diffAB := by
  refine ⟨?_, ?_, ?_, ?_⟩
  · show A ∩ B ⊆ A ∪ B
    exact Finset.inter_subset_union
  · show A ∪ B = (A \ B) ∪ (B \ A) ∪ (A ∩ B)
    ext x
    simp only [Finset.mem_union, Finset.mem_sdiff, Finset.mem_inter]
    tauto
  · show (A \ B) ∪ (B \ A) = (A \ B) ∪ (B \ A)
    rfl
  · show (A \ B) ∪ (B \ A) = (B \ A) ∪ (A \ B)
    exact Finset.union_comm _ _

/-- C7: `hasDifferences` is true exactly when the primary set is non-empty
or the operation is difference and the secondary set is non-empty; the exit
status is 2 when `printSet` fails, otherwise 1 when differences were found
and 0 when none were. -/
theorem C7_exit_status :
    (∀ r : Results, hasDifferences r = true ↔
      (r.diffAB ≠ ∅ ∨
        (r.operation = "difference".toList ∧ r.diffBA ≠ ∅))) ∧
    (∀ (fl : OpFlags) (cfg : Config) (pa pb : Str) (A B : Finset Str),
      ((∃ e, printSet cfg (computeResults fl cfg pa pb A B) =
          Except.error e) →
        executeExit (runE fl cfg pa pb A B) = 2) ∧
      (∀ o, printSet cfg (computeResults fl cfg pa pb A B) = Except.ok o →
        executeExit (runE fl cfg pa pb A B) =
          if hasDifferences (computeResults fl cfg pa pb A B) then 1
          else 0)) := by
  constructor
  · intro r
    simp only [hasDifferences, Bool.or_eq_true, Bool.and_eq_true, bne_iff_ne,
      ne_eq, beq_iff_eq, ← Finset.card_eq_zero]
  · intro fl cfg pa pb A B
    constructor
    · rintro ⟨e, he⟩
      simp [runE, executeExit, he]
    · intro o ho
      by_cases hdif :
          hasDifferences (computeResults fl cfg pa pb A B) = true
      · simp [runE, executeExit, ho, hdif]
      · simp [runE, executeExit, ho, hdif]

/-- C7 (witness): a successful difference run with a non-empty primary set
exits with status 1. -/
theorem C7_witness :
    executeExit (runE flDefault cfgDefault "a.txt".toList "b.txt".toList
      {"x".toList} ∅) = 1 := by
  have hrs : computeResults flDefault cfgDefault "a.txt".toList
      "b.txt".toList {"x".toList} ∅ =
      ⟨⟨"a.txt".toList, {"x".toList}⟩, ⟨"b.txt".toList, ∅⟩,
        "difference".toList, {"x".toList} \ ∅, ∅ \ {"x".toList}⟩ := rfl
  have h1 : ({"x".toList} : Finset Str) \ ∅ = {"x".toList} := by simp
  have h2 : (∅ : Finset Str) \ {"x".toList} = ∅ := by simp
  have ho : printSet cfgDefault (computeResults flDefault cfgDefault
      "a.txt".toList "b.txt".toList {"x".toList} ∅) =
      Except.ok (PrintOut.text
        [OutLine.header "difference".toList "a.txt".toList "b.txt".toList,
         OutLine.element "x".toList,
         OutLine.header "difference".toList "b.txt".toList "a.txt".toList]) := by
    rw [hrs]
    simp only [printSet, printText]
    rw [if_neg (by decide), if_neg (by decide), if_neg (by decide),
      if_neg (by decide), if_neg (by decide), if_pos (by decide)]
    simp only [h1, h2, toSortedSlice, Finset.sort_empty, Finset.sort_singleton]
    rfl
  have h := (C7_exit_status.2 flDefault cfgDefault "a.txt".toList
    "b.txt".toList {"x".toList} ∅).2 _ ho
  rw [h]
  rw [if_pos (by decide)]

/-- C8: stats mode reports each input set's cardinality, the overlap, and
size-minus-overlap unique counts; the two percentage figures are present
exactly when both inputs are non-empty and then equal overlap over size
times 100 with non-zero denominators, so no division by zero occurs. -/
theorem C8_stats (cfg : Config) (r : Results)
    (h1 : cfg.format ≠ "json".toList) (h2 : cfg.format ≠ "csv".toList)
    (h3 : cfg.count = false) (h4 : cfg.stats = true) :
    printSet cfg r = Except.ok (PrintOut.statsOut (printStats r)) ∧
    (printStats r).sizeA = r.fileSetA.set.card ∧
    (printStats r).sizeB = r.fileSetB.set.card ∧
    (printStats r).overlap = (r.fileSetA.set ∩ r.fileSetB.set).card ∧
    (printStats r).onlyA + (printStats r).overlap = (printStats r).sizeA ∧
    (printStats r).onlyB + (printStats r).overlap = (printStats r).sizeB ∧
    ((printStats r).pct = none ↔
      (r.fileSetA.set = ∅ ∨ r.fileSetB.set = ∅)) ∧
    (∀ q1 q2 : ℚ, (printStats r).pct = some (q1, q2) →
      r.fileSetA.set.card ≠ 0 ∧ r.fileSetB.set.card ≠ 0 ∧
      q1 = ((r.fileSetA.set ∩ r.fileSetB.set).card : ℚ) /
          (r.fileSetA.set.card : ℚ) * 100 ∧
      q2 = ((r.fileSetA.set ∩ r.fileSetB.set).card : ℚ) /
          (r.fileSetB.set.card : ℚ) * 100) := by
  have hle1 : (r.fileSetA.set ∩ r.fileSetB.set).card ≤ r.fileSetA.set.card :=
    Finset.card_le_card Finset.inter_subset_left
  have hle2 : (r.fileSetA.set ∩ r.fileSetB.set).card ≤ r.fileSetB.set.card :=
    Finset.card_le_card Finset.inter_subset_right
  refine ⟨?_, rfl, rfl, rfl, ?_, ?_, ?_, ?_⟩
  · simp only [printSet, if_neg h1, if_neg h2, h3, Bool.false_eq_true,
      if_false, h4, if_true]
  · simpa [printStats] using Nat.sub_add_cancel hle1
  · simpa [printStats] using Nat.sub_add_cancel hle2
  · simp only [printStats]
    split
    · next hcond =>
      constructor
      · intro hfalse
        exact absurd hfalse (Option.some_ne_none _)
      · rintro (hz | hz) <;> simp [hz] at hcond
    · next hcond =>
      constructor
      · intro
        rcases Nat.eq_zero_or_pos r.fileSetA.set.card with hz | hpos
        · exact Or.inl (Finset.card_eq_zero.mp hz)
        · rcases Nat.eq_zero_or_pos r.fileSetB.set.card with hz2 | hpos2
          · exact Or.inr (Finset.card_eq_zero.mp hz2)
          · exact absurd ⟨hpos, hpos2⟩ hcond
      · intro
        rfl
  · intro q1 q2 hq
    simp only [printStats] at hq
    split at hq
    · next hcond =>
      cases hq
      exact ⟨by omega, by omega, rfl, rfl⟩
    · cases hq

/-- C8 (witness): a stats-mode run on concrete sets goes through the stats
branch of `printSet`. -/
theorem C8_witness :
    printSet cfgStats rsStatsW =
      Except.ok (PrintOut.statsOut (printStats rsStatsW)) :=
  (C8_stats cfgStats rsStatsW (by decide) (by decide) rfl rfl).1

theorem printSet_ok_of_pipe {cfg : Config} {r : Results}
    (hp : cfg.pipe = true) : ∃ o, printSet cfg r = Except.ok o := by
  by_cases hj : cfg.format = "json".toList
  · exact ⟨PrintOut.json (printJSON r), by simp only [printSet, if_pos hj]⟩
  · by_cases hc : cfg.format = "csv".toList
    · exact ⟨PrintOut.csv (printCSV r), by
        simp only [printSet, if_neg hj, if_pos hc]⟩
    · by_cases hcnt : cfg.count = true
      · exact ⟨PrintOut.countOut (printCount r), by
          simp only [printSet, if_neg hj, if_neg hc, if_pos hcnt]⟩
      · by_cases hst : cfg.stats = true
        · exact ⟨PrintOut.statsOut (printStats r), by
            simp only [printSet, if_neg hj, if_neg hc, if_neg hcnt,
              if_pos hst]⟩
        · refine ⟨PrintOut.text ((toSortedSlice r.diffAB).map OutLine.element), ?_⟩
          simp only [printSet, printText, if_neg hj, if_neg hc, if_neg hcnt,
            if_neg hst, if_pos hp]
          rfl

/-- C9: for the difference operation in pipe mode the differences-found
signal depends only on A minus B: when it is empty, `hasDifferences` is
false and the process exits 0 regardless of B minus A. -/
theorem C9_pipe_difference (fl : OpFlags) (cfg : Config) (pa pb : Str)
    (A B : Finset Str) (hi : fl.intersectionFlag = false)
    (hu : fl.unionFlag = false) (hsd : fl.symmetricDiffFlag = false)
    (hp : cfg.pipe = true) (hAB : A \ B = ∅) :
    hasDifferences (computeResults fl cfg pa pb A B) = false ∧
    executeExit (runE fl cfg pa pb A B) = 0 := by
  have hrs : computeResults fl cfg pa pb A B =
      ⟨⟨pa, A⟩, ⟨pb, B⟩, "difference".toList, A \ B,
        if cfg.pipe then ∅ else B \ A⟩ := by
    rcases computeResults_cases fl cfg pa pb A B with
      ⟨hx, _⟩ | ⟨_, hx, _⟩ | ⟨_, _, hx, heq⟩ | ⟨_, _, _, heq⟩
    · rw [hi] at hx; cases hx
    · rw [hu] at hx; cases hx
    · rw [hsd] at hx; cases hx
    · exact heq
  have hdif : hasDifferences (computeResults fl cfg pa pb A B) = false := by
    rw [hrs]
    simp [hasDifferences, hAB, hp]
  refine ⟨hdif, ?_⟩
  obtain ⟨o, ho⟩ := printSet_ok_of_pipe (r := computeResults fl cfg pa pb A B) hp
  simp [runE, executeExit, ho, hdif]

/-- C9 (witness): with A contained in B and pipe mode on, B minus A is
non-empty and the run still exits 0. -/
theorem C9_witness :
    ({"x".toList} : Finset Str) \ {"x".toList, "y".toList} = ∅ ∧
    ({"x".toList, "y".toList} : Finset Str) \ {"x".toList} ≠ ∅ ∧
    executeExit (runE flDefault cfgPipe "a.txt".toList "b.txt".toList
      {"x".toList} {"x".toList, "y".toList}) = 0 :=
  ⟨by decide, by decide,
    (C9_pipe_difference flDefault cfgPipe "a.txt".toList "b.txt".toList
      {"x".toList} {"x".toList, "y".toList} rfl rfl rfl rfl (by decide)).2⟩

/-- C10 (amended): for a difference run under pipe mode the json document
always carries both labels, with B-A as an empty list of count 0; the csv
output consists of the header and only A-B rows, so no B-A label appears
there; structured formats take precedence over pipe mode in both cases. -/
theorem C10_structured_difference (fl : OpFlags) (cfg : Config) (pa pb : Str)
    (A B : Finset Str) (hi : fl.intersectionFlag = false)
    (hu : fl.unionFlag = false) (hsd : fl.symmetricDiffFlag = false)
    (hp : cfg.pipe = true) :
    (printJSON (computeResults fl cfg pa pb A B)).results =
      [("A-B".toList, toSortedSlice (A \ B)), ("B-A".toList, [])] ∧
    (printJSON (computeResults fl cfg pa pb A B)).counts =
      [("A-B".toList, (A \ B).card), ("B-A".toList, 0)] ∧
    (cfg.format = "json".toList →
      printSet cfg (computeResults fl cfg pa pb A B) =
        Except.ok (PrintOut.json
          (printJSON (computeResults fl cfg pa pb A B)))) ∧
    printCSV (computeResults fl cfg pa pb A B) =
      ["set".toList, "value".toList] ::
        (toSortedSlice (A \ B)).map (fun v => ["A-B".toList, v]) ∧
    (cfg.format = "csv".toList →
      printSet cfg (computeResults fl cfg pa pb A B) =
        Except.ok (PrintOut.csv
          (printCSV (computeResults fl cfg pa pb A B)))) := by
  have hrs : computeResults fl cfg pa pb A B =
      ⟨⟨pa, A⟩, ⟨pb, B⟩, "difference".toList, A \ B, ∅⟩ := by
    rcases computeResults_cases fl cfg pa pb A B with
      ⟨hx, _⟩ | ⟨_, hx, _⟩ | ⟨_, _, hx, heq⟩ | ⟨_, _, _, heq⟩
    · rw [hi] at hx; cases hx
    · rw [hu] at hx; cases hx
    · rw [hsd] at hx; cases hx
    · rw [heq, hp]; rfl
  refine ⟨?_, ?_, ?_, ?_, ?_⟩
  · rw [hrs]
    simp [printJSON, toSortedSlice, Finset.sort_empty]
  · rw [hrs]
    simp [printJSON]
  · intro hj
    simp only [printSet, if_pos hj]
  · rw [hrs]
    simp [printCSV, toSortedSlice, Finset.sort_empty]
  · intro hc
    have hj : cfg.format ≠ "json".toList := by
      rw [hc]
      decide
    simp only [printSet, if_neg hj, if_pos hc]

/-- C10 (counterexample): in csv format with pipe mode on and B holding one
token, the output is exactly the header row, and no row of the csv output
contains the label "B-A". -/
theorem C10_counterexample :
    printSet cfgCsvPipe rsCsvCE =
      Except.ok (PrintOut.csv [["set".toList, "value".toList]]) ∧
    ∀ row ∈ printCSV rsCsvCE, "B-A".toList ∉ row := by
  have h1 : printCSV rsCsvCE = [["set".toList, "value".toList]] := by
    have hrs : rsCsvCE =
        ⟨⟨"a.txt".toList, ∅⟩, ⟨"b.txt".toList, {"x".toList}⟩,
          "difference".toList, (∅ : Finset Str) \ {"x".toList}, ∅⟩ := rfl
    rw [hrs]
    have hd : (∅ : Finset Str) \ {"x".toList} = ∅ := by simp
    simp [printCSV, hd, toSortedSlice, Finset.sort_empty]
  constructor
  · have h2 : printSet cfgCsvPipe rsCsvCE =
        Except.ok (PrintOut.csv (printCSV rsCsvCE)) := by
      simp only [printSet, if_neg (by decide : ¬(cfgCsvPipe.format =
        "json".toList)), if_pos (by decide : cfgCsvPipe.format =
        "csv".toList)]
    rw [h2, h1]
  · rw [h1]
    decide

/-- C1 (counterexample): with an empty delimiter value the code keeps the
first character of the line ("ab" normalizes to "a"), while stage (4) as the
claim words it makes every line contain the delimiter and leaves the empty
substring before its first occurrence, so the line would be skipped; the
code does not keep the whole line either. -/
theorem C1_counterexample :
    normalizeLine cfgEmptyDelim "ab".toList = some "a".toList ∧
    normalizeSpecC1 cfgEmptyDelim "ab".toList = none ∧
    normalizeLine cfgEmptyDelim "ab".toList ≠ some "ab".toList := by
  refine ⟨by decide, by decide, by decide⟩

/-- C1 (amended): for every configuration and input line, the per-line
pipeline of `fileToSet` equals the claim's stage-by-stage normalizer once
stage (4) is amended: a non-empty delimiter splits exactly as the claim
states, and an empty delimiter keeps the trimmed first character. -/
theorem C1_pipeline_order (cfg : Config) (raw : Str) :
    normalizeLine cfg raw = normalizeSpecC1Amended cfg raw :=
  normalizeLine_eq_specAmended cfg raw

/-- C2 (counterexample): with the unrecognised operation name "bogus",
`printSet` succeeds in pipe mode and in json mode instead of returning an
error. -/
theorem C2_counterexample :
    printSet cfgPipe rsBogus = Except.ok (PrintOut.text []) ∧
    printSet { cfgDefault with format := "json".toList } rsBogus =
      Except.ok (PrintOut.json (printJSON rsBogus)) := by
  constructor
  · have h2 : printSet cfgPipe rsBogus = Except.ok (PrintOut.text
        ((toSortedSlice rsBogus.diffAB).map OutLine.element)) := by
      simp only [printSet, printText]
      rw [if_neg (by decide), if_neg (by decide), if_neg (by decide),
        if_neg (by decide), if_pos (by decide)]
      rfl
    rw [h2]
    have h3 : toSortedSlice rsBogus.diffAB = [] := by
      have : rsBogus.diffAB = ∅ := rfl
      rw [this, toSortedSlice]
      exact Finset.sort_empty _
    rw [h3]
    rfl
  · simp only [printSet]
    rw [if_pos (by decide)]

/-- C2 (witness): in text mode without pipe, the unrecognised operation is
reported as an error. -/
theorem C2_witness :
    ∃ e, printSet cfgDefault rsBogus = Except.error e :=
  (printSet_error_iff cfgDefault rsBogus (by decide)).mpr
    ⟨by decide, by decide, rfl, rfl, rfl⟩

/-- C3 (counterexample): with trim-prefix "a" and trim-suffix "b", the line
"a b" yields the whitespace-only token " ", and `fileToSet` inserts it. -/
theorem C3_counterexample :
    " ".toList ∈ fileToSet cfgTrimBoth ["a b".toList] ∧
    " ".toList ≠ ([] : Str) ∧
    (∀ c ∈ (" ".toList : Str), c.isWhitespace = true) := by
  refine ⟨by decide, by decide, by decide⟩

/-- C3 (amended): every token `fileToSet` inserts is non-empty, and it
contains a non-whitespace character whenever at most one of prefix/suffix
trimming is configured (only configuring both can produce a whitespace-only
token). -/
theorem C3_tokens_nonempty (cfg : Config) (lines : List Str) (t : Str)
    (ht : t ∈ fileToSet cfg lines) :
    t ≠ [] ∧ ((cfg.trimPrefix = [] ∨ cfg.trimSuffix = []) →
      ∃ c ∈ t, c.isWhitespace = false) := by
  obtain ⟨l, _, hn⟩ := mem_fileToSet.mp ht
  exact normalizeLine_token_shape hn

/-- C3 (witness): the token from the line "x" under the default
configuration is non-empty and not whitespace-only. -/
theorem C3_witness :
    "x".toList ∈ fileToSet cfgDefault ["x".toList] ∧
    ("x".toList ≠ ([] : Str) ∧
      ((cfgDefault.trimPrefix = [] ∨ cfgDefault.trimSuffix = []) →
        ∃ c ∈ ("x".toList : Str), c.isWhitespace = false)) :=
  ⟨by decide,
    C3_tokens_nonempty cfgDefault ["x".toList] "x".toList (by decide)⟩

/-- C6 (counterexample): with trim-prefix "a", the line "aab" produces the
token "ab", but running the pipeline on "ab" yields "b", not "ab", so
normalization is not idempotent on its own outputs in general. -/
theorem C6_counterexample :
    "ab".toList ∈ fileToSet cfgTrimA ["aab".toList] ∧
    normalizeLine cfgTrimA "ab".toList = some "b".toList ∧
    normalizeLine cfgTrimA "ab".toList ≠ some "ab".toList := by
  refine ⟨by decide, by decide, by decide⟩

/-- C6 (amended): when no extraction pattern and no prefix/suffix trimming
are configured, the pipeline is idempotent on its own outputs: any token a
`fileToSet` run produced normalizes to itself (and is not skipped). -/
theorem C6_idempotent (cfg : Config) (lines : List Str) (t : Str)
    (hex : cfg.extract = none) (hp : cfg.trimPrefix = [])
    (hs : cfg.trimSuffix = []) (ht : t ∈ fileToSet cfg lines) :
    normalizeLine cfg t = some t := by
  obtain ⟨l, _, hn⟩ := mem_fileToSet.mp ht
  exact normalizeLine_of_canonInv hex hp hs
    (canonInv_of_normalizeLine hex hp hs hn)

/-- C6 (witness): the token "x" produced under the default configuration
renormalizes to itself. -/
theorem C6_witness :
    normalizeLine cfgDefault "x".toList = some "x".toList :=
  C6_idempotent cfgDefault ["x".toList] "x".toList rfl rfl rfl (by decide)

/-- C10 (witness): the json results map of a concrete pipe-mode difference
run carries both labels with an empty B-A list. -/
theorem C10_witness :
    (printJSON (computeResults flDefault cfgJsonPipe "a.txt".toList
      "b.txt".toList ∅ {"x".toList})).results =
      [("A-B".toList, toSortedSlice ((∅ : Finset Str) \ {"x".toList})),
       ("B-A".toList, [])] :=
  (C10_structured_difference flDefault cfgJsonPipe "a.txt".toList
    "b.txt".toList ∅ {"x".toList} rfl rfl rfl rfl).1
